import Mathlib

/-!
Shallow embedding of the tangerine full-text search library
(`src/parse.rs`, `src/store.rs`, `src/index.rs`, `src/error.rs`)
and proofs about its tokenizer, key codec, ingestion accumulator and
query engine.

Conventions:
* Rust `u64` / `usize` / `u128` counters become `Nat` (no claim here
  exercises wraparound); the one place where a truncating cast matters
  (`top_docs.len() as i32`) is modelled explicitly by `toInt32`.
* Rust strings are modelled as `List Char` where byte offsets matter
  (the tokenizer slices by byte index), with byte offsets recomputed
  from `Char.utf8Size`.
* `f32` scores, always wrapped in `OrderedFloat` by the code, form a
  linear order; they are modelled by `ℚ`.
* Store errors of the underlying LSM engine (out of scope per the spec)
  are not modelled: posting iterators yield only `Ok` items, so the
  `Err` branches of the merge loop are unreachable in the model.
-/

/-! ## Record types (src/index.rs lines 16-41) -/

structure TermData where
  count : Nat
  document_count : Nat
deriving DecidableEq, Repr

/-- The all-zero record produced by `TermData::default()`. -/
def TermData.zero : TermData := ⟨0, 0⟩

structure DocumentTermData where
  body_count : Nat
  path_count : Nat
deriving DecidableEq, Repr

/-- The all-zero record produced by `DocumentTermData::default()`. -/
def DocumentTermData.zero : DocumentTermData := ⟨0, 0⟩

structure DocumentData where
  path : String
  length : Nat
deriving DecidableEq, Repr

/-- The all-zero record produced by `DocumentData::default()`. -/
def DocumentData.zero : DocumentData := ⟨"", 0⟩

/-! ## Tokenizer (src/parse.rs)

The Rust tokenizer classifies `char`s with the Unicode predicates
`is_alphanumeric` / `is_numeric` / `is_lowercase` / `is_uppercase`.
The embedding is parameterized over those predicates (`CharSpec`), so
theorems quantified over a `CharSpec` cover the real Unicode tables as
one instance; `asciiChars` instantiates them for ASCII inputs, where
the Unicode predicates agree with the ASCII ones. -/

structure CharSpec where
  is_alphanumeric : Char → Bool
  is_numeric : Char → Bool
  is_lowercase : Char → Bool
  is_uppercase : Char → Bool

/-- On ASCII code points Rust's Unicode predicates agree with these. -/
def asciiChars : CharSpec :=
  ⟨Char.isAlphanum, Char.isDigit, Char.isLower, Char.isUpper⟩

/-- `char_indices` starting at byte offset `off`. -/
def charIndicesFrom (off : Nat) : List Char → List (Nat × Char)
  | [] => []
  | c :: cs => (off, c) :: charIndicesFrom (off + c.utf8Size) cs

/-- Rust's `str::char_indices`: each char paired with its byte offset. -/
def charIndices (cs : List Char) : List (Nat × Char) := charIndicesFrom 0 cs

/-- Byte length of the UTF-8 encoding (`str::len`). -/
def utf8Len (cs : List Char) : Nat := (cs.map Char.utf8Size).sum

/-- The `TokenState` enum of `split_token` (src/parse.rs lines 14-22). -/
inductive TokenState
  | start
  | nocase
  | uppercase
  | lowercase
  | digits
  | tsEnd
deriving DecidableEq, Repr

/-- The state classification of a peeked char
(src/parse.rs lines 43-51). -/
def classify (spec : CharSpec) (c : Char) : TokenState :=
  if spec.is_numeric c then .digits
  else if spec.is_lowercase c then .lowercase
  else if spec.is_uppercase c then .uppercase
  else .nocase

/-- A produced token; `isSub` is the `partial` flag of the Rust
`TokenSlice` (src/parse.rs lines 1-7). -/
structure PToken where
  token : List Char
  line : Nat
  column : Nat
  offset : Nat
  isSub : Bool
deriving DecidableEq, Repr

/-- Byte-range slicing `&token[a..b]` on a char-indexed list
(both bounds fall on char boundaries at every use site). -/
def sliceBytes (cs : List (Nat × Char)) (a b : Nat) : List Char :=
  (cs.filter (fun p => decide (a ≤ p.1) && decide (p.1 < b))).map Prod.snd

/-- The sub-token emitted by `split_token`: slice of the parent's byte
range `[a, b)`, parent's line/column, parent offset plus `a`,
`partial = true` (src/parse.rs lines 89-95 and 104-110). -/
def mkSub (parent : PToken) (rel : List (Nat × Char)) (a b : Nat) : PToken :=
  ⟨sliceBytes rel a b, parent.line, parent.column, parent.offset + a, true⟩

/-- The loop of `split_token` (src/parse.rs lines 31-112), written as a
fueled recursion: `rest` is the unconsumed tail of the peekable
char-indices iterator, `word_start` and `prev` the loop state.  One
fuel unit is spent per loop iteration; `split_token` supplies enough
fuel for all iterations (each iteration either consumes a char or is
the single rewind step after an initialism split). -/
def splitLoop (spec : CharSpec) (parent : PToken) (rel : List (Nat × Char))
    (tokLen : Nat) :
    Nat → List (Nat × Char) → Nat → TokenState → List PToken
  | 0, _, _, _ => []
  | _fuel + 1, [], word_start, prev =>
    -- peek returned None: word_end = token.len(), next_state = End
    if prev = TokenState.start ∨ word_start = 0 then []
    else [mkSub parent rel word_start tokLen]
  | fuel + 1, (i, c) :: rtl, word_start, prev =>
    let next := classify spec c
    if prev = next then
      splitLoop spec parent rel tokLen fuel rtl word_start next
    else if prev = TokenState.start then
      splitLoop spec parent rel tokLen fuel rtl word_start next
    else if prev = TokenState.uppercase ∧ next = TokenState.lowercase then
      if i - word_start = 1 then
        splitLoop spec parent rel tokLen fuel rtl word_start next
      else
        match (rel.filter (fun p => decide (word_start ≤ p.1) && decide (p.1 < i))).getLast? with
        | none => splitLoop spec parent rel tokLen fuel rtl word_start next
        | some (lastOff, _) =>
          -- last_char_len = word.len() - last_char (bytes)
          if i - lastOff = i - word_start then
            splitLoop spec parent rel tokLen fuel rtl word_start next
          else
            mkSub parent rel word_start (i - (i - lastOff)) ::
              splitLoop spec parent rel tokLen fuel ((i, c) :: rtl)
                (i - (i - lastOff)) next
    else
      mkSub parent rel word_start i ::
        splitLoop spec parent rel tokLen fuel rtl i next

/-- `split_token` (src/parse.rs lines 13-113). -/
def split_token (spec : CharSpec) (parent : PToken) : List PToken :=
  let rel := charIndices parent.token
  splitLoop spec parent rel (utf8Len parent.token)
    (2 * rel.length + 2) rel 0 TokenState.start

/-- Result of the inner word loop of `parse_text`
(src/parse.rs lines 141-156). -/
structure WordOut where
  word : List Char
  endOff : Nat
  newline : Bool
  col : Nat
  rem : List (Nat × Char)
deriving Repr

/-- The inner word loop of `parse_text`: consume alphanumeric chars
(collecting them) until a non-alphanumeric char (also consumed) or the
end of input; track the column, which resets to 0 on a newline
terminator (src/parse.rs lines 141-156). -/
def wordLoop (spec : CharSpec) (textLen : Nat) :
    List (Nat × Char) → Nat → WordOut
  | [], col => ⟨[], textLen, false, col, []⟩
  | (i, c) :: rest, col =>
    if spec.is_alphanumeric c then
      let w := wordLoop spec textLen rest (col + 1)
      ⟨c :: w.word, w.endOff, w.newline, w.col, w.rem⟩
    else
      ⟨[], i, c == '\n', if c == '\n' then 0 else col + 1, rest⟩

/-- The outer loop of `parse_text` (src/parse.rs lines 115-173), as a
fueled recursion; each outer iteration consumes at least one char, so
fuel equal to the input length suffices. -/
def parseAux (spec : CharSpec) (textLen : Nat) :
    Nat → List (Nat × Char) → Nat → Nat → List PToken
  | 0, _, _, _ => []
  | _fuel + 1, [], _, _ => []
  | fuel + 1, (i, c) :: rest, line, col =>
    if spec.is_alphanumeric c then
      let w := wordLoop spec textLen rest (col + 1)
      let tok : PToken := ⟨c :: w.word, line, col, i, false⟩
      tok :: (split_token spec tok ++
        parseAux spec textLen fuel w.rem
          (if w.newline then line + 1 else line) w.col)
    else if c == '\n' then
      parseAux spec textLen fuel rest (line + 1) 0
    else
      parseAux spec textLen fuel rest line (col + 1)

/-- `parse_text` (src/parse.rs lines 115-173). -/
def parse_text (spec : CharSpec) (text : List Char) : List PToken :=
  let ci := charIndices text
  parseAux spec (utf8Len text) ci.length ci 0 0

theorem length_dropWhile_le' {α : Type} (p : α → Bool) (l : List α) :
    (l.dropWhile p).length ≤ l.length := by
  induction l with
  | nil => simp [List.dropWhile]
  | cons a l ih =>
    by_cases h : p a
    · rw [List.dropWhile_cons_of_pos h]
      exact Nat.le_succ_of_le ih
    · rw [List.dropWhile_cons_of_neg h]

/-- The maximal alphanumeric runs of a char-indexed text, with the byte
offset of each run: the reference reading of the spec sentence "the
tokens emitted with `partial = false` are exactly the maximal
alphanumeric runs of `s`". -/
def alnumRuns (al : Char → Bool) : List (Nat × Char) → List (Nat × List Char)
  | [] => []
  | (i, c) :: rest =>
    if al c then
      (i, c :: (rest.takeWhile (fun p => al p.2)).map Prod.snd) ::
        alnumRuns al (rest.dropWhile (fun p => al p.2))
    else
      alnumRuns al rest
termination_by l => l.length
decreasing_by
  · exact Nat.lt_succ_of_le (length_dropWhile_le' _ _)
  · simp

/-! ## Key codec (src/store.rs lines 133-166)

Keys are byte strings, modelled as `List Nat` with byte values below
256.  `str::from_utf8` / `str::as_bytes` are modelled by a standard
UTF-8 decoder/encoder (RFC 3629: shortest form, no surrogates, max
U+10FFFF), which is exactly the validation Rust performs. -/

/-- A UTF-8 continuation byte. -/
def contByte (b : Nat) : Bool := decide (0x80 ≤ b) && decide (b < 0xC0)

/-- UTF-8 decoding with full validation, as performed by Rust's
`str::from_utf8`; `none` on any invalid byte sequence. -/
def utf8Decode : List Nat → Option (List Char)
  | [] => some []
  | b :: rest =>
    if b < 0x80 then
      (utf8Decode rest).map (fun cs => Char.ofNat b :: cs)
    else if b < 0xC2 then none
    else if b < 0xE0 then
      match rest with
      | c1 :: rest2 =>
        if contByte c1 then
          (utf8Decode rest2).map
            (fun cs => Char.ofNat ((b - 0xC0) * 0x40 + (c1 - 0x80)) :: cs)
        else none
      | [] => none
    else if b < 0xF0 then
      match rest with
      | c1 :: c2 :: rest2 =>
        let ok1 := if b = 0xE0 then decide (0xA0 ≤ c1) && decide (c1 < 0xC0)
                   else if b = 0xED then decide (0x80 ≤ c1) && decide (c1 < 0xA0)
                   else contByte c1
        if ok1 && contByte c2 then
          (utf8Decode rest2).map
            (fun cs => Char.ofNat ((b - 0xE0) * 0x1000 + (c1 - 0x80) * 0x40 + (c2 - 0x80)) :: cs)
        else none
      | _ => none
    else if b < 0xF5 then
      match rest with
      | c1 :: c2 :: c3 :: rest2 =>
        let ok1 := if b = 0xF0 then decide (0x90 ≤ c1) && decide (c1 < 0xC0)
                   else if b = 0xF4 then decide (0x80 ≤ c1) && decide (c1 < 0x90)
                   else contByte c1
        if ok1 && contByte c2 && contByte c3 then
          (utf8Decode rest2).map
            (fun cs => Char.ofNat ((b - 0xF0) * 0x40000 + (c1 - 0x80) * 0x1000 + (c2 - 0x80) * 0x40 + (c3 - 0x80)) :: cs)
        else none
      | _ => none
    else none

/-- UTF-8 encoding of one scalar value (Rust `char` as bytes). -/
def utf8EncodeChar (c : Char) : List Nat :=
  let n := c.toNat
  if n < 0x80 then [n]
  else if n < 0x800 then [0xC0 + n / 0x40, 0x80 + n % 0x40]
  else if n < 0x10000 then
    [0xE0 + n / 0x1000, 0x80 + n / 0x40 % 0x40, 0x80 + n % 0x40]
  else
    [0xF0 + n / 0x40000, 0x80 + n / 0x1000 % 0x40, 0x80 + n / 0x40 % 0x40,
      0x80 + n % 0x40]

/-- Rust `str::as_bytes` of the term. -/
def utf8Encode (cs : List Char) : List Nat :=
  cs.foldr (fun c acc => utf8EncodeChar c ++ acc) []

/-- The two error shapes `parse_posting_list_key` can produce
(src/error.rs: `DeserializationError` and `Utf8Error`). -/
inductive KeyError
  | deserializationError
  | utf8Error
deriving DecidableEq, Repr

/-- The 16 bytes of `u128::to_be_bytes`. -/
def beBytes16 (doc : Nat) : List Nat :=
  (List.range 16).map (fun i => doc / 256 ^ (15 - i) % 256)

/-- Big-endian byte decoding (`bytes::Buf::get_u128` over the given
bytes). -/
def beDecode (bs : List Nat) : Nat :=
  bs.foldl (fun acc b => acc * 256 + b % 256) 0

/-- `make_posting_list_key` (src/store.rs lines 133-140):
`term_utf8 ++ 0x00 ++ doc_id_be128`. -/
def make_posting_list_key (term : List Char) (doc : Nat) : List Nat :=
  utf8Encode term ++ 0 :: beBytes16 doc

/-- `make_posting_list_prefix` (src/store.rs lines 160-166). -/
def make_posting_list_prefix (term : List Char) : List Nat :=
  utf8Encode term ++ [0]

/-- `parse_posting_list_key` (src/store.rs lines 142-158): length
check, then UTF-8 validation of the first `len - 17` bytes, then the
delimiter check at offset `len - 17`, then the big-endian doc id from
the last 16 bytes. -/
def parse_posting_list_key (key : List Nat) : Except KeyError (List Char × Nat) :=
  if key.length < 17 then .error .deserializationError
  else
    let term_length := key.length - 17
    match utf8Decode (key.take term_length) with
    | none => .error .utf8Error
    | some term =>
      let delimiter := (key.drop term_length).headD 0
      if delimiter ≠ 0 then .error .deserializationError
      else .ok (term, beDecode (key.drop (term_length + 1)))

/-! ## Ingestion accumulator (src/index.rs lines 43-101)

`DocProcessor`'s two `HashMap`s are modelled as total functions with
the `remove(..).unwrap_or_default()` reading built in: an absent key
maps to the zero record. -/

/-- Modelled from the spec: the `occurrence.position` field read by
`DocProcessor::process_token` (src/index.rs line 99) has no definition
under src/ — `TokenSlice` in src/parse.rs has no `occurrence` field.
Per the spec (§4.5), `position` is the primary word's 0-based ordinal
in the token stream, shared by that word's partial sub-tokens. -/
structure OccToken where
  token : List Char
  position : Nat
deriving DecidableEq, Repr

/-- Pointwise map update (`HashMap::insert` after `remove`). -/
def updateMap {β : Type} (f : List Char → β) (k : List Char) (v : β) :
    List Char → β :=
  fun x => if x = k then v else f x

structure DocProcessor where
  id : Nat
  path : String
  in_path : Bool
  docLength : Nat
  terms : List Char → TermData
  doc_terms : List Char → DocumentTermData

/-- `DocProcessor::new` (src/index.rs lines 53-62). -/
def DocProcessor.new (id : Nat) (path : String) : DocProcessor :=
  ⟨id, path, false, 0, fun _ => TermData.zero, fun _ => DocumentTermData.zero⟩

/-- `DocProcessor::process_token` (src/index.rs lines 84-100). -/
def DocProcessor.process_token (st : DocProcessor) (tok : OccToken) :
    DocProcessor :=
  let term_data := st.terms tok.token
  let doc_term_data := st.doc_terms tok.token
  let term_data2 : TermData := ⟨term_data.count + 1, 1⟩
  let doc_term_data2 : DocumentTermData :=
    if st.in_path then ⟨doc_term_data.body_count, doc_term_data.path_count + 1⟩
    else ⟨doc_term_data.body_count + 1, doc_term_data.path_count⟩
  { st with
    terms := updateMap st.terms tok.token term_data2
    doc_terms := updateMap st.doc_terms tok.token doc_term_data2
    docLength := max st.docLength (tok.position + 1) }

/-- The `DocumentData` record `DocProcessor::finalize` writes to the
document store (src/index.rs lines 64-69). -/
def DocProcessor.finalizeDocument (st : DocProcessor) : DocumentData :=
  ⟨st.path, st.docLength⟩

/-- Modelled from the spec: positions for a token stream — each
primary token gets the next 0-based ordinal, each partial sub-token
carries the ordinal of the preceding primary. -/
def attachPositions : List PToken → Nat → List OccToken
  | [], _ => []
  | t :: rest, n =>
    if t.isSub then ⟨t.token, n - 1⟩ :: attachPositions rest n
    else ⟨t.token, n⟩ :: attachPositions rest (n + 1)

/-! ## Query engine (src/index.rs lines 165-252)

`search` streams the per-term posting-list iterators (peekable lists),
repeatedly takes the minimum doc id among iterator heads, builds the
per-term record array, invokes the scorer and pushes into the bounded
top-K structure.  The merge loop is a fueled recursion; the total
remaining length of the iterators bounds the iteration count and is
provably sufficient fuel. -/

abbrev PostIter := List (Nat × DocumentTermData)

/-- The store contents visible to `search`: the three partitions, with
each posting list materialized in key order (the fjall prefix scan over
`term ++ 0x00 ++ doc_be128` keys yields ascending doc ids). -/
structure StoreModel where
  termGet : String → Option TermData
  docGet : Nat → Option DocumentData
  postings : String → PostIter

/-- The current head doc ids of the iterators
(`posting.peek()`, src/index.rs lines 191-206). -/
def heads (its : List PostIter) : List Nat :=
  its.filterMap (fun it => it.head?.map Prod.fst)

/-- The lowest head doc id (`first_doc`, src/index.rs lines 190-209). -/
def firstDoc (its : List PostIter) : Option Nat := (heads its).min?

/-- The `doc_term_data` array built at candidate `d`
(src/index.rs lines 218-233): each NON-EXHAUSTED iterator contributes
its head's record when the head id is `d` and the zero record
otherwise; an exhausted iterator contributes nothing. -/
def doc_term_data (its : List PostIter) (d : Nat) : List DocumentTermData :=
  its.filterMap
    (fun it => it.head?.map (fun p => if p.1 = d then p.2 else DocumentTermData.zero))

/-- Advancing the iterators after candidate `d`: exactly the iterators
whose head id equals `d` lose their head (`posting.next()`,
src/index.rs line 224). -/
def advance (its : List PostIter) (d : Nat) : List PostIter :=
  its.map (fun it =>
    match it.head? with
    | some p => if p.1 = d then it.tail else it
    | none => it)

/-- One scorer invocation of the merge loop: the candidate id, the
document record (zero if absent, src/index.rs lines 212-215) and the
`doc_term_data` array. -/
structure ScoreCall where
  docId : Nat
  docData : DocumentData
  dtd : List DocumentTermData
deriving DecidableEq, Repr

/-- Total remaining length of the iterators; bounds the number of merge
iterations since every iteration consumes at least one posting. -/
def totalLen (its : List PostIter) : Nat := (its.map List.length).sum

/-- The merge loop of `search` (src/index.rs lines 188-240) as a fueled
recursion, returning the sequence of scorer invocations in order. -/
def mergeAux (docGet : Nat → Option DocumentData) :
    Nat → List PostIter → List ScoreCall
  | 0, _ => []
  | fuel + 1, its =>
    match firstDoc its with
    | none => []
    | some d =>
      ⟨d, (docGet d).getD DocumentData.zero, doc_term_data its d⟩ ::
        mergeAux docGet fuel (advance its d)

/-- The full run of the merge loop (fuel `totalLen its` suffices). -/
def mergeCalls (docGet : Nat → Option DocumentData) (its : List PostIter) :
    List ScoreCall :=
  mergeAux docGet (totalLen its) its

/-- A scorer (src/index.rs lines 112-121): doc id, document record,
query terms, term records, per-doc term records, producing a score. -/
abbrev ScorerFn :=
  Nat → DocumentData → List String → List TermData → List DocumentTermData → ℚ

/-- The `term_data` array of `search` (src/index.rs lines 171-178):
one record per query term, zero when absent. -/
def termDataOf (store : StoreModel) (terms : List String) : List TermData :=
  terms.map (fun t => (store.termGet t).getD TermData.zero)

/-- The scored candidate sequence: each merge-loop invocation paired
with the score the scorer returns for it (src/index.rs line 235). -/
def scoredCalls (store : StoreModel) (terms : List String) (scorer : ScorerFn) :
    List (Nat × ℚ) :=
  (mergeCalls store.docGet (terms.map store.postings)).map
    (fun c => (c.docId, scorer c.docId c.docData terms (termDataOf store terms) c.dtd))

/-- Rust's `usize as i32` cast (two's complement truncation), as in
`top_docs.len() as i32 > max_docs` (src/index.rs line 237). -/
def toInt32 (n : Nat) : Int :=
  ((n % 2 ^ 32 : Nat) : Int) - (if n % 2 ^ 32 < 2 ^ 31 then 0 else 2 ^ 32)

/-- Strict ranking of scored docs: higher score first, ties by doc id
ascending. -/
def rankBefore (a b : Nat × ℚ) : Prop :=
  b.2 < a.2 ∨ (a.2 = b.2 ∧ a.1 < b.1)

instance (a b : Nat × ℚ) : Decidable (rankBefore a b) := by
  unfold rankBefore; infer_instance

/-- Non-strict ranking (the sortedness order of the retained list). -/
def rankLE (a b : Nat × ℚ) : Prop :=
  b.2 < a.2 ∨ (b.2 = a.2 ∧ a.1 ≤ b.1)

/-- Insertion into the ranked list. -/
def insertRanked (p : Nat × ℚ) : List (Nat × ℚ) → List (Nat × ℚ)
  | [] => [p]
  | q :: rest => if rankBefore p q then p :: q :: rest else q :: insertRanked p rest

/-- Modelled from the spec: one push into the bounded top-K structure.
The Rust code stores `(doc, OrderedFloat(-score))` in a
`priority_queue::PriorityQueue` (an external crate, not part of this
repository's sources) and pops the maximum of `-score` — i.e. the
minimum score — whenever the size exceeds `max_docs`
(src/index.rs lines 236-239).  Per the spec (§4.6 step e) the heap is
"keyed by score (ties broken by doc id ascending — stable and
deterministic)": the model keeps the retained entries as a list sorted
by descending score with ties by ascending doc id, and evicts the last
(minimum) entry on overflow. -/
def heapPush (maxDocs : Int) (acc : List (Nat × ℚ)) (p : Nat × ℚ) :
    List (Nat × ℚ) :=
  let acc2 := insertRanked p acc
  if toInt32 acc2.length > maxDocs then acc2.dropLast else acc2

/-- The retained `(doc, score)` entries at the end of `search`, in the
order returned (descending score: `into_sorted_iter` yields ascending
score — descending `-score` priority — and the code reverses it,
src/index.rs lines 242-249). -/
def searchHeap (store : StoreModel) (terms : List String) (scorer : ScorerFn)
    (maxDocs : Int) : List (Nat × ℚ) :=
  (scoredCalls store terms scorer).foldl (heapPush maxDocs) []

/-- `InvertedIndex::search` (src/index.rs lines 165-252). -/
def search (store : StoreModel) (terms : List String) (scorer : ScorerFn)
    (maxDocs : Int) : List Nat :=
  (searchHeap store terms scorer maxDocs).map Prod.fst

/-- A candidate document: one occurring in at least one query term's
posting list. -/
def IsCandidate (store : StoreModel) (terms : List String) (d : Nat) : Prop :=
  ∃ t ∈ terms, ∃ p ∈ store.postings t, p.1 = d

/-- Each posting list is strictly ascending in doc id — guaranteed by
the key encoding (big-endian fixed-width ids under a lexicographic
prefix scan) for every real store. -/
def SortedStore (store : StoreModel) : Prop :=
  ∀ t : String, (store.postings t).Chain' (fun a b => a.1 < b.1)

/-! ## Tokenizer proofs -/

theorem splitLoop_isSub (spec : CharSpec) (parent : PToken)
    (rel : List (Nat × Char)) (tokLen : Nat) :
    ∀ fuel rest ws prev t, t ∈ splitLoop spec parent rel tokLen fuel rest ws prev →
      t.isSub = true := by
  intro fuel
  induction fuel with
  | zero => intro rest ws prev t ht; simp [splitLoop] at ht
  | succ n ih =>
    intro rest ws prev t ht
    cases rest with
    | nil =>
      simp only [splitLoop] at ht
      split at ht
      · simp at ht
      · simp only [List.mem_singleton] at ht
        subst ht; rfl
    | cons hd tl =>
      obtain ⟨i, c⟩ := hd
      simp only [splitLoop] at ht
      split at ht
      · exact ih _ _ _ _ ht
      · split at ht
        · exact ih _ _ _ _ ht
        · split at ht
          · split at ht
            · exact ih _ _ _ _ ht
            · split at ht
              · exact ih _ _ _ _ ht
              · split at ht
                · exact ih _ _ _ _ ht
                · rcases List.mem_cons.mp ht with h | h
                  · subst h; rfl
                  · exact ih _ _ _ _ h
          · rcases List.mem_cons.mp ht with h | h
            · subst h; rfl
            · exact ih _ _ _ _ h

theorem split_token_isSub (spec : CharSpec) (parent : PToken) :
    ∀ t ∈ split_token spec parent, t.isSub = true := by
  intro t ht
  exact splitLoop_isSub spec parent _ _ _ _ _ _ t ht

theorem wordLoop_word_rem (spec : CharSpec) (textLen : Nat) :
    ∀ (rest : List (Nat × Char)) (col : Nat),
      (wordLoop spec textLen rest col).word
          = (rest.takeWhile (fun p => spec.is_alphanumeric p.2)).map Prod.snd
        ∧ (wordLoop spec textLen rest col).rem
          = (rest.dropWhile (fun p => spec.is_alphanumeric p.2)).tail := by
  intro rest
  induction rest with
  | nil => intro col; simp [wordLoop, List.takeWhile, List.dropWhile]
  | cons hd tl ih =>
    intro col
    obtain ⟨i, c⟩ := hd
    by_cases h : spec.is_alphanumeric c
    · simp only [wordLoop, h, if_true, List.takeWhile_cons_of_pos, List.dropWhile_cons_of_pos]
      exact ⟨by simp [(ih (col + 1)).1], (ih (col + 1)).2⟩
    · have hb : spec.is_alphanumeric c = false := by simpa using h
      simp [wordLoop, hb, List.takeWhile_cons_of_neg, List.dropWhile_cons_of_neg]

theorem alnumRuns_nil (al : Char → Bool) : alnumRuns al [] = [] := by
  rw [alnumRuns]

theorem alnumRuns_cons_neg (al : Char → Bool) (i : Nat) (c : Char)
    (rest : List (Nat × Char)) (h : al c = false) :
    alnumRuns al ((i, c) :: rest) = alnumRuns al rest := by
  rw [alnumRuns]; simp [h]

theorem alnumRuns_cons_pos (al : Char → Bool) (i : Nat) (c : Char)
    (rest : List (Nat × Char)) (h : al c = true) :
    alnumRuns al ((i, c) :: rest) =
      (i, c :: (rest.takeWhile (fun p => al p.2)).map Prod.snd) ::
        alnumRuns al (rest.dropWhile (fun p => al p.2)) := by
  rw [alnumRuns]; simp [h]

theorem head_dropWhile_neg {α : Type} (p : α → Bool) (l : List α) :
    ∀ x ∈ (l.dropWhile p).head?, p x = false := by
  induction l with
  | nil => simp [List.dropWhile]
  | cons a t ih =>
    by_cases h : p a
    · rw [List.dropWhile_cons_of_pos h]; exact ih
    · rw [List.dropWhile_cons_of_neg h]
      intro x hx
      simp only [List.head?_cons, Option.mem_some_iff] at hx
      subst hx; exact Bool.eq_false_iff.mpr h

theorem alnumRuns_tail_of_head_neg (al : Char → Bool) (l : List (Nat × Char))
    (h : ∀ x ∈ l.head?, al x.2 = false) :
    alnumRuns al l = alnumRuns al l.tail := by
  cases l with
  | nil => rfl
  | cons hd tl =>
    obtain ⟨i, c⟩ := hd
    exact alnumRuns_cons_neg al i c tl (h (i, c) (by simp))

theorem parseAux_runs (spec : CharSpec) (textLen : Nat) :
    ∀ fuel rest line col, rest.length ≤ fuel →
      ((parseAux spec textLen fuel rest line col).filter (fun t => !t.isSub)).map
          (fun t => (t.offset, t.token))
        = alnumRuns spec.is_alphanumeric rest := by
  intro fuel
  induction fuel with
  | zero =>
    intro rest line col hle
    have hr : rest = [] := List.length_eq_zero.mp (Nat.le_zero.mp hle)
    subst hr
    simp [parseAux, alnumRuns_nil]
  | succ n ih =>
    intro rest line col hle
    cases rest with
    | nil => simp [parseAux, alnumRuns_nil]
    | cons hd tl =>
      obtain ⟨i, c⟩ := hd
      have htl : tl.length ≤ n := Nat.succ_le_succ_iff.mp (by simpa using hle)
      by_cases h : spec.is_alphanumeric c
      · have hword := (wordLoop_word_rem spec textLen tl (col + 1)).1
        have hrem := (wordLoop_word_rem spec textLen tl (col + 1)).2
        have hlen : (wordLoop spec textLen tl (col + 1)).rem.length ≤ n := by
          rw [hrem]
          exact le_trans (le_trans (List.length_tail _ ▸ Nat.sub_le _ 1)
            (length_dropWhile_le' _ _)) htl
        simp only [parseAux, h, if_true]
        rw [List.filter_cons_of_pos (by simp), List.filter_append]
        rw [List.filter_eq_nil_iff.mpr (fun t ht => by
          simp [split_token_isSub spec _ t ht])]
        rw [List.nil_append, List.map_cons, ih _ _ _ hlen]
        rw [alnumRuns_cons_pos _ _ _ _ (by simpa using h)]
        rw [alnumRuns_tail_of_head_neg spec.is_alphanumeric
          (tl.dropWhile (fun p => spec.is_alphanumeric p.2))
          (head_dropWhile_neg _ tl), ← hrem]
        simp [hword]
      · have hb : spec.is_alphanumeric c = false := by simpa using h
        rw [alnumRuns_cons_neg _ _ _ _ hb]
        by_cases hn : c == '\n'
        · simp only [parseAux, hb, if_false, hn, if_true, Bool.false_eq_true]
          exact ih _ _ _ htl
        · simp only [parseAux, hb, Bool.false_eq_true, if_false, hn]
          exact ih _ _ _ htl

/-- C5: for every character-classification table (hence for Rust's real
Unicode one) and every text, the tokens `parse_text` emits with
`partial = false` are exactly the maximal alphanumeric runs of the
text, in order, each carrying the run's characters and its byte
offset; on the empty string no tokens at all are emitted. -/
theorem parse_text_primary_runs (spec : CharSpec) (text : List Char) :
    ((parse_text spec text).filter (fun t => !t.isSub)).map
        (fun t => (t.offset, t.token))
      = alnumRuns spec.is_alphanumeric (charIndices text)
    ∧ parse_text spec [] = [] := by
  constructor
  · exact parseAux_runs spec (utf8Len text) (charIndices text).length
      (charIndices text) 0 0 (le_refl _)
  · rfl

/-- C6: tokenizing `"foo123bar"` emits exactly the primary token plus
the partials `foo`, `123`, `bar` at byte offsets 0, 3, 6, and
tokenizing `"XMLHttpRequest"` emits exactly the primary token plus the
partials `XML`, `Http`, `Request` at byte offsets 0, 3, 7 — all with
line 0, column 0, and the stated `partial` flags. -/
theorem parse_text_examples :
    parse_text asciiChars ("foo123bar".data) =
      [⟨"foo123bar".data, 0, 0, 0, false⟩, ⟨"foo".data, 0, 0, 0, true⟩,
        ⟨"123".data, 0, 0, 3, true⟩, ⟨"bar".data, 0, 0, 6, true⟩]
    ∧ parse_text asciiChars ("XMLHttpRequest".data) =
      [⟨"XMLHttpRequest".data, 0, 0, 0, false⟩, ⟨"XML".data, 0, 0, 0, true⟩,
        ⟨"Http".data, 0, 0, 3, true⟩, ⟨"Request".data, 0, 0, 7, true⟩] := by
  exact ⟨by decide, by decide⟩

/-! ## Key codec proofs -/

theorem headD_drop {α : Type} (l : List α) (n : Nat) (d : α) :
    (l.drop n).headD d = l.getD n d := by
  induction l generalizing n with
  | nil => simp
  | cons a t ih =>
    cases n with
    | zero => simp
    | succ m => simp [ih m]

/-- C7 (amended): `parse_posting_list_key` returns the UTF-8 error
whenever the length is at least 17 and the term bytes are invalid
UTF-8 — this check runs BEFORE the delimiter check — and returns
`DeserializationError` exactly when the length is below 17, or the
term bytes are valid UTF-8 and the byte at offset `len - 17` is not
zero; otherwise it returns the decoded term together with the
big-endian doc id from the last 16 bytes. -/
theorem parse_posting_list_key_spec (key : List Nat) :
    (parse_posting_list_key key = .error .deserializationError ↔
        key.length < 17 ∨
          (17 ≤ key.length ∧ (utf8Decode (key.take (key.length - 17))).isSome ∧
            key.getD (key.length - 17) 0 ≠ 0))
    ∧ (parse_posting_list_key key = .error .utf8Error ↔
        17 ≤ key.length ∧ utf8Decode (key.take (key.length - 17)) = none)
    ∧ (∀ term, 17 ≤ key.length →
        utf8Decode (key.take (key.length - 17)) = some term →
        key.getD (key.length - 17) 0 = 0 →
        parse_posting_list_key key =
          .ok (term, beDecode (key.drop (key.length - 16)))) := by
  by_cases hlen : key.length < 17
  · have hp : parse_posting_list_key key = .error .deserializationError := by
      simp [parse_posting_list_key, hlen]
    refine ⟨⟨fun _ => Or.inl hlen, fun _ => hp⟩,
      ⟨fun h => ?_, fun h => absurd h.1 (by omega)⟩,
      fun term h17 _ _ => absurd h17 (by omega)⟩
    rw [hp] at h; simp at h
  · have h17 : 17 ≤ key.length := by omega
    cases hdec : utf8Decode (key.take (key.length - 17)) with
    | none =>
      have hp : parse_posting_list_key key = .error .utf8Error := by
        simp [parse_posting_list_key, hlen, hdec]
      refine ⟨⟨fun h => ?_, fun h => ?_⟩, ⟨fun _ => ⟨h17, rfl⟩, fun _ => hp⟩,
        fun term _ hsome _ => by simp at hsome⟩
      · rw [hp] at h; simp at h
      · rcases h with h | ⟨_, hsome, _⟩
        · omega
        · simp at hsome
    | some term =>
      by_cases hd : key.getD (key.length - 17) 0 = 0
      · have hd2 : key[key.length - 17]?.getD 0 = 0 := by
          rw [← List.getD_eq_getElem?_getD]; exact hd
        have hp : parse_posting_list_key key =
            .ok (term, beDecode (key.drop (key.length - 17 + 1))) := by
          simp [parse_posting_list_key, hlen, hdec, headD_drop,
            List.getD_eq_getElem?_getD, hd2]
        have h16 : key.length - 17 + 1 = key.length - 16 := by omega
        rw [h16] at hp
        refine ⟨⟨fun h => ?_, fun h => ?_⟩,
          ⟨fun h => ?_, fun h => by simp at h⟩,
          fun term2 _ hsome _ => ?_⟩
        · rw [hp] at h; simp at h
        · rcases h with h | ⟨_, _, hne⟩
          · omega
          · exact absurd hd hne
        · rw [hp] at h; simp at h
        · obtain rfl : term = term2 := by simpa using hsome
          exact hp
      · have hd2 : ¬ key[key.length - 17]?.getD 0 = 0 := by
          rw [← List.getD_eq_getElem?_getD]; exact hd
        have hp : parse_posting_list_key key = .error .deserializationError := by
          simp [parse_posting_list_key, hlen, hdec, headD_drop,
            List.getD_eq_getElem?_getD, hd2]
        refine ⟨⟨fun _ => Or.inr ⟨h17, by simp, hd⟩, fun _ => hp⟩,
          ⟨fun h => by rw [hp] at h; simp at h, fun h => by simp at h⟩,
          fun term2 _ _ hzero => absurd hzero hd⟩

def badKey : List Nat := 255 :: 1 :: List.replicate 16 0

/-- C7 counterexample: a length-18 key whose term byte `0xFF` is not
valid UTF-8 and whose byte at offset `len - 17` is `0x01`: the claim
demands `DeserializationError` (the byte at `len - 17` is nonzero) but
the code returns the UTF-8 error, which is checked first. -/
theorem parse_posting_list_key_claim_counterexample :
    badKey.length = 18
    ∧ badKey.getD (badKey.length - 17) 0 = 1
    ∧ parse_posting_list_key badKey = .error .utf8Error
    ∧ parse_posting_list_key badKey ≠ .error .deserializationError := by
  have h3 : parse_posting_list_key badKey = .error .utf8Error := rfl
  exact ⟨by decide, by decide, h3, by simp [h3]⟩

def goodKey : List Nat := 97 :: 0 :: (List.replicate 15 0 ++ [5])

theorem parse_posting_list_key_spec_witness :
    parse_posting_list_key goodKey = .ok (['a'], 5) :=
  (parse_posting_list_key_spec goodKey).2.2 ['a'] (by decide)
    (by decide) (by decide)

theorem beBytes16_length (doc : Nat) : (beBytes16 doc).length = 16 := by
  simp [beBytes16]

/-- C8 counterexample: for term `"a"` and doc id 0 the key is
`[0x61, 0x00, 0x00, ..., 0x00]`: the all-zero big-endian id bytes make
`0x00` occur seventeen times in the key, not exactly once, even though
the term bytes contain no `0x00`. -/
theorem make_posting_list_key_claim_counterexample :
    (make_posting_list_key ['a'] 0).count 0 = 17
    ∧ 0 ∉ utf8Encode ['a'] := by
  exact ⟨by decide, by decide⟩

/-- C8 (amended): when the term bytes contain no `0x00`, the delimiter
at index `term.len` is the unique `0x00` of the key's first
`len - 16` bytes (the term-plus-delimiter prefix); the remaining 16
bytes are the big-endian doc id and may themselves contain zero
bytes. -/
theorem make_posting_list_key_delimiter (term : List Char) (doc : Nat)
    (h : 0 ∉ utf8Encode term) :
    ((make_posting_list_key term doc).take
        ((make_posting_list_key term doc).length - 16)).count 0 = 1
    ∧ (make_posting_list_key term doc).getD (utf8Encode term).length 1 = 0
    ∧ (make_posting_list_key term doc).length = (utf8Encode term).length + 17
    ∧ (make_posting_list_key term doc).drop ((utf8Encode term).length + 1)
        = beBytes16 doc := by
  have hlen : (make_posting_list_key term doc).length
      = (utf8Encode term).length + 17 := by
    simp [make_posting_list_key, beBytes16_length]
  have htake : (make_posting_list_key term doc).take
      ((make_posting_list_key term doc).length - 16)
      = utf8Encode term ++ [0] := by
    rw [hlen]
    have h1 : (utf8Encode term).length + 17 - 16 = (utf8Encode term).length + 1 := by
      omega
    rw [h1, make_posting_list_key, List.take_append_eq_append_take]
    simp
  refine ⟨?_, ?_, hlen, ?_⟩
  · rw [htake, List.count_append]
    rw [List.count_eq_zero.mpr h]
    simp
  · rw [make_posting_list_key, List.getD_eq_getElem?_getD,
      List.getElem?_append_right (le_refl _)]
    simp
  · rw [make_posting_list_key, List.drop_append_eq_append_drop]
    simp

theorem make_posting_list_key_delimiter_witness :
    (0 ∉ utf8Encode ['a'])
    ∧ ((make_posting_list_key ['a'] 7).take
        ((make_posting_list_key ['a'] 7).length - 16)).count 0 = 1 :=
  ⟨by decide, (make_posting_list_key_delimiter ['a'] 7 (by decide)).1⟩

/-! ## Ingestion proofs -/

theorem docLength_fold (ts : List OccToken) (st : DocProcessor) :
    (ts.foldl DocProcessor.process_token st).docLength
      = max st.docLength ((ts.map (fun t => t.position + 1)).foldr max 0) := by
  induction ts generalizing st with
  | nil => simp
  | cons t rest ih =>
    simp only [List.foldl_cons, List.map_cons, List.foldr_cons]
    rw [ih]
    have hstep : (st.process_token t).docLength
        = max st.docLength (t.position + 1) := rfl
    rw [hstep, max_assoc]

/-- C9: for every token stream, the `DocumentData` record that
`finalize` writes carries `length` equal to the maximum of
`position + 1` over all observed tokens — the 1-based maximum token
position — and `0` for a document that produced no tokens; `position`
is the containing primary word's 0-based ordinal (spec-modelled, since
`TokenSlice` under src/ has no `occurrence` field). -/
theorem finalize_length_spec (id : Nat) (path : String) (ts : List OccToken) :
    ((ts.foldl DocProcessor.process_token
        (DocProcessor.new id path)).finalizeDocument).length
      = (ts.map (fun t => t.position + 1)).foldr max 0 := by
  have h := docLength_fold ts (DocProcessor.new id path)
  simpa [DocProcessor.finalizeDocument, DocProcessor.new] using h

/-! ## Merge-loop proofs -/

theorem min?_spec (l : List Nat) (a : Nat) (h : l.min? = some a) :
    a ∈ l ∧ ∀ b ∈ l, a ≤ b := by
  rw [List.min?_eq_some_iff] at h
  · exact h
  · exact fun a => le_refl a
  · exact fun x y => min_choice x y
  · exact fun x y z => le_min_iff

theorem mem_heads_iff (its : List PostIter) (d : Nat) :
    d ∈ heads its ↔ ∃ it ∈ its, ∃ p, it.head? = some p ∧ p.1 = d := by
  simp only [heads, List.mem_filterMap, Option.map_eq_some']

/-- The per-iterator step of `advance`. -/
theorem advance_eq_map (its : List PostIter) (d : Nat) :
    advance its d = its.map (fun it =>
      match it.head? with
      | some p => if p.1 = d then it.tail else it
      | none => it) := rfl

theorem advOne_length_le (d : Nat) (it : PostIter) :
    (match it.head? with
      | some p => if p.1 = d then it.tail else it
      | none => it).length ≤ it.length := by
  cases it with
  | nil => simp
  | cons q t =>
    simp only [List.head?_cons]
    by_cases h : q.1 = d <;> simp [h]

theorem totalLen_advance_le (its : List PostIter) (d : Nat) :
    totalLen (advance its d) ≤ totalLen its := by
  induction its with
  | nil => simp [advance, totalLen]
  | cons a tl ih =>
    simp only [advance, totalLen, List.map_cons, List.sum_cons] at ih ⊢
    exact Nat.add_le_add (advOne_length_le d a) ih

theorem totalLen_advance_lt (its : List PostIter) (d : Nat)
    (h : firstDoc its = some d) :
    totalLen (advance its d) < totalLen its := by
  have hd := (min?_spec _ _ h).1
  rw [mem_heads_iff] at hd
  obtain ⟨it0, hit0, p, hp, hpd⟩ := hd
  clear h
  induction its with
  | nil => cases hit0
  | cons a tl ih =>
    rcases List.mem_cons.mp hit0 with rfl | hmem
    · cases it0 with
      | nil => simp at hp
      | cons q t =>
        simp only [List.head?_cons, Option.some.injEq] at hp
        subst hp
        simp only [advance, totalLen, List.map_cons, List.sum_cons,
          List.head?_cons, hpd, if_true]
        have := totalLen_advance_le tl d
        simp only [advance, totalLen] at this
        simp only [List.length_cons, List.tail_cons]
        omega
    · have hlt := ih hmem
      simp only [advance, totalLen, List.map_cons, List.sum_cons] at hlt ⊢
      exact add_lt_add_of_le_of_lt (advOne_length_le d a) hlt

theorem advance_sorted (its : List PostIter) (d : Nat)
    (hs : ∀ it ∈ its, it.Chain' (fun a b => a.1 < b.1)) :
    ∀ it ∈ advance its d, it.Chain' (fun a b => a.1 < b.1) := by
  intro it' hit'
  rw [advance_eq_map, List.mem_map] at hit'
  obtain ⟨it, hit, rfl⟩ := hit'
  cases it with
  | nil => simp
  | cons q t =>
    simp only [List.head?_cons]
    by_cases h : q.1 = d
    · simp only [h, if_true, List.tail_cons]
      exact (hs _ hit).tail
    · simp only [h, if_false]
      exact hs _ hit

instance : IsTrans (Nat × DocumentTermData) (fun a b => a.1 < b.1) :=
  ⟨fun _ _ _ hab hbc => lt_trans hab hbc⟩

theorem chain'_lt_mem_tail {l : PostIter} (h : l.Chain' (fun a b => a.1 < b.1))
    {q : Nat × DocumentTermData} {t : PostIter} (he : l = q :: t) :
    ∀ p ∈ t, q.1 < p.1 := by
  subst he
  have hp : (q :: t).Pairwise (fun a b => a.1 < b.1) :=
    List.chain'_iff_pairwise.mp h
  exact (List.pairwise_cons.mp hp).1

theorem advance_elem_gt (its : List PostIter) (d : Nat)
    (hs : ∀ it ∈ its, it.Chain' (fun a b => a.1 < b.1))
    (h : firstDoc its = some d) :
    ∀ it' ∈ advance its d, ∀ p ∈ it', d < p.1 := by
  intro it' hit' p hp
  rw [advance_eq_map, List.mem_map] at hit'
  obtain ⟨it, hit, rfl⟩ := hit'
  cases it with
  | nil => simp at hp
  | cons q t =>
    have hqh : q.1 ∈ heads its := by
      rw [mem_heads_iff]
      exact ⟨q :: t, hit, q, rfl, rfl⟩
    have hdq : d ≤ q.1 := (min?_spec _ _ h).2 _ hqh
    simp only [List.head?_cons] at hp
    by_cases hq : q.1 = d
    · simp only [hq, if_true, List.tail_cons] at hp
      have := chain'_lt_mem_tail (hs _ hit) rfl p hp
      omega
    · simp only [hq, if_false] at hp
      rcases List.mem_cons.mp hp with rfl | hpt
      · omega
      · have := chain'_lt_mem_tail (hs _ hit) rfl p hpt
        omega

theorem elem_iff_advance (its : List PostIter) (d : Nat)
    (h : firstDoc its = some d) (e : Nat) :
    (∃ it ∈ its, ∃ p ∈ it, p.1 = e) ↔
      e = d ∨ ∃ it ∈ advance its d, ∃ p ∈ it, p.1 = e := by
  constructor
  · rintro ⟨it, hit, p, hp, rfl⟩
    cases it with
    | nil => cases hp
    | cons q t =>
      by_cases hq : q.1 = d
      · rcases List.mem_cons.mp hp with rfl | hpt
        · exact Or.inl hq
        · refine Or.inr ⟨t, ?_, p, hpt, rfl⟩
          rw [advance_eq_map, List.mem_map]
          exact ⟨q :: t, hit, by simp [hq]⟩
      · refine Or.inr ⟨q :: t, ?_, p, hp, rfl⟩
        rw [advance_eq_map, List.mem_map]
        exact ⟨q :: t, hit, by simp [hq]⟩
  · rintro (rfl | ⟨it', hit', p, hp, rfl⟩)
    · have hd := (min?_spec _ _ h).1
      rw [mem_heads_iff] at hd
      obtain ⟨it, hit, p, hp, hpd⟩ := hd
      cases it with
      | nil => simp at hp
      | cons q t =>
        simp only [List.head?_cons, Option.some.injEq] at hp
        subst hp
        exact ⟨q :: t, hit, q, List.mem_cons_self q t, hpd⟩
    · rw [advance_eq_map, List.mem_map] at hit'
      obtain ⟨it, hit, rfl⟩ := hit'
      cases it with
      | nil => simp at hp
      | cons q t =>
        simp only [List.head?_cons] at hp
        by_cases hq : q.1 = d
        · simp only [hq, if_true, List.tail_cons] at hp
          exact ⟨q :: t, hit, p, List.mem_cons_of_mem q hp, rfl⟩
        · simp only [hq, if_false] at hp
          exact ⟨q :: t, hit, p, hp, rfl⟩

theorem totalLen_eq_zero (its : List PostIter) (h : totalLen its = 0) :
    ∀ it ∈ its, it = [] := by
  intro it hit
  have : it.length = 0 := by
    by_contra hne
    have h1 : 1 ≤ it.length := Nat.one_le_iff_ne_zero.mpr hne
    have : it.length ≤ totalLen its := by
      unfold totalLen
      exact List.single_le_sum (by simp) _ (List.mem_map_of_mem _ hit)
    omega
  exact List.length_eq_zero.mp this

theorem firstDoc_none (its : List PostIter) (h : firstDoc its = none) :
    ∀ it ∈ its, it = [] := by
  unfold firstDoc at h
  have hh : heads its = [] := by
    cases he : heads its with
    | nil => rfl
    | cons a t => rw [he] at h; simp [List.min?] at h
  intro it hit
  cases it with
  | nil => rfl
  | cons q t =>
    have : q.1 ∈ heads its := (mem_heads_iff its q.1).mpr ⟨q :: t, hit, q, rfl, rfl⟩
    rw [hh] at this
    cases this

theorem mergeAux_spec (docGet : Nat → Option DocumentData) :
    ∀ fuel its, totalLen its ≤ fuel →
      (∀ it ∈ its, (it : PostIter).Chain' (fun a b => a.1 < b.1)) →
      ((mergeAux docGet fuel its).map ScoreCall.docId).Pairwise (· < ·)
      ∧ (∀ e, e ∈ (mergeAux docGet fuel its).map ScoreCall.docId ↔
          ∃ it ∈ its, ∃ p ∈ it, p.1 = e) := by
  intro fuel
  induction fuel with
  | zero =>
    intro its hle _
    have hnil := totalLen_eq_zero its (Nat.le_zero.mp hle)
    refine ⟨by simp [mergeAux], fun e => ?_⟩
    simp only [mergeAux, List.map_nil, List.not_mem_nil, false_iff]
    rintro ⟨it, hit, p, hp, _⟩
    rw [hnil it hit] at hp
    cases hp
  | succ n ih =>
    intro its hle hs
    cases hfd : firstDoc its with
    | none =>
      have hnil := firstDoc_none its hfd
      refine ⟨by simp [mergeAux, hfd], fun e => ?_⟩
      simp only [mergeAux, hfd, List.map_nil, List.not_mem_nil, false_iff]
      rintro ⟨it, hit, p, hp, _⟩
      rw [hnil it hit] at hp
      cases hp
    | some d =>
      have hlt := totalLen_advance_lt its d hfd
      have hle2 : totalLen (advance its d) ≤ n := by omega
      have hs2 := advance_sorted its d hs
      obtain ⟨ihp, ihm⟩ := ih (advance its d) hle2 hs2
      have hgt := advance_elem_gt its d hs hfd
      constructor
      · simp only [mergeAux, hfd, List.map_cons]
        rw [List.pairwise_cons]
        refine ⟨fun e he => ?_, ihp⟩
        obtain ⟨it', hit', p, hp, rfl⟩ := (ihm e).mp he
        exact hgt it' hit' p hp
      · intro e
        simp only [mergeAux, hfd, List.map_cons, List.mem_cons]
        rw [elem_iff_advance its d hfd e, ihm e]

theorem sorted_map_postings (store : StoreModel) (terms : List String)
    (hs : SortedStore store) :
    ∀ it ∈ terms.map store.postings, it.Chain' (fun a b => a.1 < b.1) := by
  intro it hit
  rw [List.mem_map] at hit
  obtain ⟨t, _, rfl⟩ := hit
  exact hs t

theorem mergeCalls_ids (store : StoreModel) (terms : List String)
    (hs : SortedStore store) :
    ((mergeCalls store.docGet (terms.map store.postings)).map
        ScoreCall.docId).Pairwise (· < ·)
    ∧ (∀ d, d ∈ (mergeCalls store.docGet (terms.map store.postings)).map
          ScoreCall.docId ↔ IsCandidate store terms d) := by
  obtain ⟨h1, h2⟩ := mergeAux_spec store.docGet (totalLen (terms.map store.postings))
    (terms.map store.postings) (le_refl _) (sorted_map_postings store terms hs)
  refine ⟨h1, fun d => ?_⟩
  rw [mergeCalls]
  rw [h2 d]
  unfold IsCandidate
  constructor
  · rintro ⟨it, hit, p, hp, rfl⟩
    rw [List.mem_map] at hit
    obtain ⟨t, ht, rfl⟩ := hit
    exact ⟨t, ht, p, hp, rfl⟩
  · rintro ⟨t, ht, p, hp, rfl⟩
    exact ⟨store.postings t, List.mem_map_of_mem _ ht, p, hp, rfl⟩

/-- C3: under every sorted store, the merge loop of `search` invokes
the scorer exactly once per candidate document (one present in at
least one query term's posting list — a disjunctive merge), in
strictly ascending doc-id order; and at each step exactly the
iterators whose head id equals the current minimum are advanced to
their tails, the others left untouched. -/
theorem search_merge_scan (store : StoreModel) (terms : List String)
    (hs : SortedStore store) :
    ((mergeCalls store.docGet (terms.map store.postings)).map
        ScoreCall.docId).Pairwise (· < ·)
    ∧ (∀ d, d ∈ (mergeCalls store.docGet (terms.map store.postings)).map
          ScoreCall.docId ↔ IsCandidate store terms d)
    ∧ (∀ d, IsCandidate store terms d →
        ((mergeCalls store.docGet (terms.map store.postings)).map
          ScoreCall.docId).count d = 1)
    ∧ (∀ (its : List PostIter) (d : Nat), firstDoc its = some d →
        ∀ i : Nat, (advance its d)[i]? = (its[i]?).map (fun it =>
          if it.head?.map Prod.fst = some d then it.tail else it)) := by
  obtain ⟨h1, h2⟩ := mergeCalls_ids store terms hs
  refine ⟨h1, h2, fun d hd => ?_, fun its d _ i => ?_⟩
  · have hnd : ((mergeCalls store.docGet (terms.map store.postings)).map
        ScoreCall.docId).Nodup := h1.imp (fun hab => Nat.ne_of_lt hab)
    exact List.count_eq_one_of_mem hnd ((h2 d).mpr hd)
  · rw [advance_eq_map, List.getElem?_map]
    cases hg : its[i]? with
    | none => rfl
    | some it =>
      simp only [Option.map_some']
      cases it with
      | nil => rfl
      | cons q t =>
        by_cases hq : q.1 = d <;> simp [hq]

def demoStore : StoreModel where
  termGet := fun _ => none
  docGet := fun _ => none
  postings := fun _ => [(1, ⟨1, 0⟩), (3, ⟨0, 1⟩)]

theorem search_merge_scan_witness :
    SortedStore demoStore
    ∧ ((mergeCalls demoStore.docGet (["a"].map demoStore.postings)).map
        ScoreCall.docId).Pairwise (· < ·) := by
  have hs : SortedStore demoStore := by
    intro t
    show List.Chain' (fun a b => a.1 < b.1)
      [(1, (⟨1, 0⟩ : DocumentTermData)), (3, ⟨0, 1⟩)]
    simp [List.chain'_cons]
  exact ⟨hs, (search_merge_scan demoStore ["a"] hs).1⟩

def c1Store : StoreModel where
  termGet := fun _ => none
  docGet := fun _ => none
  postings := fun t =>
    if t = "a" then [(1, ⟨1, 0⟩)] else if t = "b" then [(2, ⟨2, 0⟩)] else []

/-- C1: the claimed invariant `doc_term_records.len() == terms.len()`
fails on the code: with query `["a", "b"]`, `a` posting only doc 1 and
`b` posting only doc 2, the scorer invocation for candidate doc 2
receives a `doc_term_data` array of length 1 — the iterator for `a` is
exhausted and contributes nothing instead of a zero record — so
position correspondence with `terms` is lost (the single entry is
`b`'s record sitting at position 0). -/
theorem scorer_args_length_mismatch :
    (mergeCalls c1Store.docGet (["a", "b"].map c1Store.postings)).map
        (fun c => (c.docId, c.dtd.length))
      = [(1, 2), (2, 1)]
    ∧ (["a", "b"] : List String).length = 2 := by
  exact ⟨by decide, rfl⟩

/-! ## Bounded top-K proofs -/

theorem toInt32_small (n : Nat) (h : n < 2 ^ 31) : toInt32 n = (n : Int) := by
  unfold toInt32
  have h32 : n % 2 ^ 32 = n := Nat.mod_eq_of_lt (by omega)
  rw [h32, if_pos h]
  simp

theorem rankBefore_imp_rankLE {a b : Nat × ℚ} (h : rankBefore a b) : rankLE a b := by
  rcases h with h | ⟨he, hl⟩
  · exact Or.inl h
  · exact Or.inr ⟨he.symm, le_of_lt hl⟩

theorem not_rankBefore_imp_rankLE {p q : Nat × ℚ} (h : ¬ rankBefore p q) :
    rankLE q p := by
  unfold rankBefore at h
  push_neg at h
  obtain ⟨h1, h2⟩ := h
  rcases lt_or_eq_of_le h1 with hlt | heq
  · exact Or.inl hlt
  · exact Or.inr ⟨heq, h2 heq⟩

theorem rankLE_trans {a b c : Nat × ℚ} (hab : rankLE a b) (hbc : rankLE b c) :
    rankLE a c := by
  rcases hab with h1 | ⟨he1, hl1⟩ <;> rcases hbc with h2 | ⟨he2, hl2⟩
  · exact Or.inl (lt_trans h2 h1)
  · exact Or.inl (he2 ▸ h1)
  · exact Or.inl (by rw [he1] at h2; exact h2)
  · exact Or.inr ⟨he2.trans he1, le_trans hl1 hl2⟩

theorem rankLE_score {a b : Nat × ℚ} (h : rankLE a b) : b.2 ≤ a.2 := by
  rcases h with h | ⟨he, _⟩
  · exact le_of_lt h
  · exact le_of_eq he

theorem insertRanked_perm (p : Nat × ℚ) (l : List (Nat × ℚ)) :
    (insertRanked p l).Perm (p :: l) := by
  induction l with
  | nil => exact List.Perm.refl _
  | cons q rest ih =>
    rw [insertRanked]
    by_cases h : rankBefore p q
    · rw [if_pos h]
    · rw [if_neg h]
      exact (ih.cons q).trans (List.Perm.swap p q rest)

theorem insertRanked_length (p : Nat × ℚ) (l : List (Nat × ℚ)) :
    (insertRanked p l).length = l.length + 1 := by
  have := (insertRanked_perm p l).length_eq
  simpa using this

theorem insertRanked_sorted (p : Nat × ℚ) (l : List (Nat × ℚ))
    (h : l.Pairwise rankLE) : (insertRanked p l).Pairwise rankLE := by
  induction l with
  | nil => simp [insertRanked]
  | cons q rest ih =>
    rw [insertRanked]
    obtain ⟨hq, hrest⟩ := List.pairwise_cons.mp h
    by_cases hb : rankBefore p q
    · rw [if_pos hb]
      refine List.pairwise_cons.mpr ⟨?_, h⟩
      intro b hb2
      rcases List.mem_cons.mp hb2 with rfl | hbr
      · exact rankBefore_imp_rankLE hb
      · exact rankLE_trans (rankBefore_imp_rankLE hb) (hq b hbr)
    · rw [if_neg hb]
      refine List.pairwise_cons.mpr ⟨?_, ih hrest⟩
      intro b hb2
      have : b ∈ p :: rest := (insertRanked_perm p rest).mem_iff.mp hb2
      rcases List.mem_cons.mp this with rfl | hbr
      · exact not_rankBefore_imp_rankLE hb
      · exact hq b hbr

theorem pairwise_last_le {l : List (Nat × ℚ)} (h : l.Pairwise rankLE)
    (hne : l ≠ []) : ∀ q ∈ l.dropLast, rankLE q (l.getLast hne) := by
  have h2 : (l.dropLast ++ [l.getLast hne]).Pairwise rankLE := by
    rw [List.dropLast_append_getLast hne]; exact h
  intro q hq
  exact ((List.pairwise_append.mp h2).2.2) q hq _ (List.mem_singleton_self _)

/-- The invariant of the bounded top-K fold: the retained entries are
rank-sorted, the processed entries split into retained plus dropped,
every dropped entry ranks no better than every retained one, and the
retained count is the minimum of processed count and capacity. -/
def HeapInv (maxN : Nat) (processed acc : List (Nat × ℚ)) : Prop :=
  acc.Pairwise rankLE
  ∧ (∃ dropped, processed.Perm (acc ++ dropped)
      ∧ ∀ x ∈ dropped, ∀ q ∈ acc, rankLE q x)
  ∧ acc.length = min processed.length maxN

theorem append_eq_dropLast_cons {α : Type} {l tl : List α} (hne : l ≠ []) :
    l ++ tl = l.dropLast ++ (l.getLast hne :: tl) := by
  conv_lhs => rw [← List.dropLast_append_getLast hne]
  rw [List.append_assoc]
  rfl

theorem dropLast_perm_of_getLast_eq {l tl : List (Nat × ℚ)} {a : Nat × ℚ}
    (hne : l ≠ []) (hp : l.Perm (a :: tl)) (hlast : l.getLast hne = a) :
    l.dropLast.Perm tl := by
  subst hlast
  have h1 : (l.dropLast ++ [l.getLast hne]).Perm (l.getLast hne :: tl) := by
    rw [List.dropLast_append_getLast hne]
    exact hp
  have h2 : (l.getLast hne :: l.dropLast).Perm (l.getLast hne :: tl) :=
    (List.perm_append_singleton _ _).symm.trans h1
  exact h2.cons_inv

theorem heapPush_inv (maxDocs : Int) (hm : 0 ≤ maxDocs)
    (processed acc : List (Nat × ℚ)) (p : Nat × ℚ)
    (hlen : processed.length + 1 < 2 ^ 31)
    (hinv : HeapInv maxDocs.toNat processed acc) :
    HeapInv maxDocs.toNat (processed ++ [p]) (heapPush maxDocs acc p) := by
  obtain ⟨hsort, ⟨dropped, hperm, hdom⟩, hlen_eq⟩ := hinv
  have hacc_le : acc.length ≤ processed.length := by
    have h := hperm.length_eq
    rw [List.length_append] at h
    omega
  have hL_len : (insertRanked p acc).length = acc.length + 1 :=
    insertRanked_length p acc
  have hL_sorted : (insertRanked p acc).Pairwise rankLE :=
    insertRanked_sorted p acc hsort
  have hL_perm : (insertRanked p acc).Perm (p :: acc) := insertRanked_perm p acc
  have hcast : toInt32 (insertRanked p acc).length
      = ((insertRanked p acc).length : Int) :=
    toInt32_small _ (by omega)
  have hmd : ((maxDocs.toNat : Nat) : Int) = maxDocs := Int.toNat_of_nonneg hm
  by_cases hgt : maxDocs.toNat < acc.length + 1
  · have hcond : toInt32 (insertRanked p acc).length > maxDocs := by
      rw [hcast, hL_len, ← hmd]
      exact_mod_cast hgt
    have hstep : heapPush maxDocs acc p = (insertRanked p acc).dropLast := by
      simp only [heapPush]
      rw [if_pos hcond]
    have hne : insertRanked p acc ≠ [] := by
      intro hcon
      rw [hcon] at hL_len
      simp at hL_len
    have hsplit : (insertRanked p acc).dropLast
        ++ [(insertRanked p acc).getLast hne] = insertRanked p acc :=
      List.dropLast_append_getLast hne
    have hdrop_sorted : (insertRanked p acc).dropLast.Pairwise rankLE :=
      List.Pairwise.sublist (List.dropLast_sublist (insertRanked p acc)) hL_sorted
    have hlast_le : ∀ q ∈ (insertRanked p acc).dropLast,
        rankLE q ((insertRanked p acc).getLast hne) :=
      pairwise_last_le hL_sorted hne
    have hperm2 : (processed ++ [p]).Perm
        ((insertRanked p acc).dropLast
          ++ ((insertRanked p acc).getLast hne :: dropped)) := by
      have s1 : (processed ++ [p]).Perm (p :: processed) :=
        List.perm_append_singleton p processed
      have s2 : (p :: processed).Perm (p :: (acc ++ dropped)) := hperm.cons p
      have s3 : ((p :: acc) ++ dropped).Perm (insertRanked p acc ++ dropped) :=
        (hL_perm.symm).append_right dropped
      have s4 : insertRanked p acc ++ dropped
          = (insertRanked p acc).dropLast
            ++ ((insertRanked p acc).getLast hne :: dropped) :=
        append_eq_dropLast_cons hne
      have s5 : (p :: (acc ++ dropped)).Perm
          ((insertRanked p acc).dropLast
            ++ ((insertRanked p acc).getLast hne :: dropped)) := by
        rw [show p :: (acc ++ dropped) = (p :: acc) ++ dropped from rfl, ← s4]
        exact s3
      exact s1.trans (s2.trans s5)
    have hdom2 : ∀ x ∈ (insertRanked p acc).getLast hne :: dropped,
        ∀ q ∈ (insertRanked p acc).dropLast, rankLE q x := by
      intro x hx q hq
      rcases List.mem_cons.mp hx with rfl | hxd
      · exact hlast_le q hq
      · have hqL : q ∈ insertRanked p acc :=
          (List.dropLast_sublist (insertRanked p acc)).subset hq
        have hqpa : q ∈ p :: acc := hL_perm.mem_iff.mp hqL
        rcases List.mem_cons.mp hqpa with rfl | hqa
        · have heL : (insertRanked q acc).getLast hne ∈ insertRanked q acc :=
            List.getLast_mem hne
          have hepa : (insertRanked q acc).getLast hne ∈ q :: acc :=
            hL_perm.mem_iff.mp heL
          rcases List.mem_cons.mp hepa with heq | hea
          · have hperm5 : (insertRanked q acc).dropLast.Perm acc :=
              dropLast_perm_of_getLast_eq hne hL_perm heq
            have hqacc : q ∈ acc := hperm5.mem_iff.mp hq
            exact hdom x hxd q hqacc
          · exact rankLE_trans (hlast_le _ hq) (hdom x hxd _ hea)
        · exact hdom x hxd q hqa
    rw [hstep]
    refine ⟨hdrop_sorted, ⟨_, hperm2, hdom2⟩, ?_⟩
    rw [List.length_dropLast, hL_len, List.length_append]
    simp only [List.length_singleton]
    omega
  · push_neg at hgt
    have hcond : ¬ toInt32 (insertRanked p acc).length > maxDocs := by
      rw [hcast, hL_len, ← hmd]
      push_neg
      exact_mod_cast hgt
    have hstep : heapPush maxDocs acc p = insertRanked p acc := by
      simp only [heapPush]
      rw [if_neg hcond]
    have hdropped_nil : dropped = [] := by
      by_contra hne2
      have hdl : 1 ≤ dropped.length := by
        cases dropped with
        | nil => exact absurd rfl hne2
        | cons a t => simp
      have hpl := hperm.length_eq
      rw [List.length_append] at hpl
      omega
    subst hdropped_nil
    rw [hstep]
    refine ⟨insertRanked_sorted p acc hsort, ⟨[], ?_, by simp⟩, ?_⟩
    · rw [List.append_nil]
      have s1 : (processed ++ [p]).Perm (p :: processed) :=
        List.perm_append_singleton p processed
      have s2 : (p :: processed).Perm (p :: acc) := by
        have hpa : processed.Perm acc := by simpa using hperm
        exact hpa.cons p
      exact s1.trans (s2.trans hL_perm.symm)
    · rw [hL_len, List.length_append]
      simp only [List.length_singleton]
      omega

theorem foldl_heapPush_inv (maxDocs : Int) (hm : 0 ≤ maxDocs) :
    ∀ (todo processed acc : List (Nat × ℚ)),
      processed.length + todo.length < 2 ^ 31 →
      HeapInv maxDocs.toNat processed acc →
      HeapInv maxDocs.toNat (processed ++ todo)
        (todo.foldl (heapPush maxDocs) acc) := by
  intro todo
  induction todo with
  | nil =>
    intro processed acc _ h
    simpa using h
  | cons p rest ih =>
    intro processed acc hlen hinv
    have h1 := heapPush_inv maxDocs hm processed acc p
      (by simp at hlen; omega) hinv
    have h2 := ih (processed ++ [p]) (heapPush maxDocs acc p)
      (by simp at hlen ⊢; omega) h1
    rw [List.foldl_cons]
    have he : processed ++ [p] ++ rest = processed ++ p :: rest := by
      rw [List.append_assoc]
      rfl
    rw [he] at h2
    exact h2

theorem searchHeap_inv (store : StoreModel) (terms : List String)
    (scorer : ScorerFn) (maxDocs : Int) (hm : 0 ≤ maxDocs)
    (hc : (scoredCalls store terms scorer).length < 2 ^ 31) :
    HeapInv maxDocs.toNat (scoredCalls store terms scorer)
      (searchHeap store terms scorer maxDocs) := by
  have hbase : HeapInv maxDocs.toNat [] [] :=
    ⟨List.Pairwise.nil, ⟨[], List.Perm.refl _, by simp⟩, by simp⟩
  have h := foldl_heapPush_inv maxDocs hm (scoredCalls store terms scorer) [] []
    (by simpa using hc) hbase
  simpa [searchHeap] using h

/-- C2: for every sorted store and `max_docs ≥ 0` (within `i32` range,
with fewer than `2^31` candidates), `search` returns exactly
`min(max_docs, candidate_count)` doc ids; the candidate sequence is the
set of docs in at least one query term's posting list; the retained
entries are sorted by descending score; every candidate left out
scores no higher than any returned entry; when `max_docs` is at least
the candidate count the result is a permutation of the whole candidate
set; and when `max_docs = 0` the result is empty. -/
theorem search_topk (store : StoreModel) (terms : List String)
    (scorer : ScorerFn) (maxDocs : Int) (hs : SortedStore store)
    (hm : 0 ≤ maxDocs) (hc : (scoredCalls store terms scorer).length < 2 ^ 31) :
    (search store terms scorer maxDocs).length
        = min (scoredCalls store terms scorer).length maxDocs.toNat
    ∧ (∀ d, d ∈ (scoredCalls store terms scorer).map Prod.fst ↔
        IsCandidate store terms d)
    ∧ (searchHeap store terms scorer maxDocs).Pairwise (fun a b => b.2 ≤ a.2)
    ∧ (∀ x ∈ scoredCalls store terms scorer,
        x.1 ∉ search store terms scorer maxDocs →
        ∀ q ∈ searchHeap store terms scorer maxDocs, x.2 ≤ q.2)
    ∧ ((scoredCalls store terms scorer).length ≤ maxDocs.toNat →
        (search store terms scorer maxDocs).Perm
          ((scoredCalls store terms scorer).map Prod.fst))
    ∧ (maxDocs = 0 → search store terms scorer maxDocs = []) := by
  obtain ⟨hsort, ⟨dropped, hperm, hdom⟩, hlen_eq⟩ :=
    searchHeap_inv store terms scorer maxDocs hm hc
  have hfst : (scoredCalls store terms scorer).map Prod.fst
      = (mergeCalls store.docGet (terms.map store.postings)).map
          ScoreCall.docId := by
    rw [scoredCalls, List.map_map]
    rfl
  have hlen_search : (search store terms scorer maxDocs).length
      = min (scoredCalls store terms scorer).length maxDocs.toNat := by
    rw [search, List.length_map]
    exact hlen_eq
  refine ⟨hlen_search, ?_, ?_, ?_, ?_, ?_⟩
  · intro d
    rw [hfst]
    exact (mergeCalls_ids store terms hs).2 d
  · exact hsort.imp rankLE_score
  · intro x hx hnx q hq
    have hxm : x ∈ searchHeap store terms scorer maxDocs ++ dropped :=
      hperm.mem_iff.mp hx
    rcases List.mem_append.mp hxm with hh | hd
    · exact absurd (List.mem_map_of_mem Prod.fst hh) hnx
    · exact rankLE_score (hdom x hd q hq)
  · intro hge
    have hlen2 : (searchHeap store terms scorer maxDocs).length
        = (scoredCalls store terms scorer).length := by
      rw [hlen_eq]
      omega
    have hdn : dropped = [] := by
      have := hperm.length_eq
      rw [List.length_append] at this
      have : dropped.length = 0 := by omega
      exact List.length_eq_zero.mp this
    subst hdn
    rw [List.append_nil] at hperm
    exact (hperm.symm.map Prod.fst)
  · intro h0
    subst h0
    have : (search store terms scorer 0).length = 0 := by
      rw [hlen_search]
      simp
    exact List.length_eq_zero.mp this

theorem search_topk_witness :
    (SortedStore demoStore ∧ (0 : Int) ≤ 1
      ∧ (scoredCalls demoStore ["a"] (fun d _ _ _ _ => (d : ℚ))).length < 2 ^ 31)
    ∧ (search demoStore ["a"] (fun d _ _ _ _ => (d : ℚ)) 1).length
        = min (scoredCalls demoStore ["a"] (fun d _ _ _ _ => (d : ℚ))).length
            (1 : Int).toNat := by
  have hs : SortedStore demoStore := by
    intro t
    show List.Chain' (fun a b => a.1 < b.1)
      [(1, (⟨1, 0⟩ : DocumentTermData)), (3, ⟨0, 1⟩)]
    simp [List.chain'_cons]
  have hc : (scoredCalls demoStore ["a"] (fun d _ _ _ _ => (d : ℚ))).length
      < 2 ^ 31 := by
    have h2 : (scoredCalls demoStore ["a"] (fun d _ _ _ _ => (d : ℚ))).length
        = 2 := rfl
    omega
  exact ⟨⟨hs, by norm_num, hc⟩,
    (search_topk demoStore ["a"] (fun d _ _ _ _ => (d : ℚ)) 1 hs
      (by norm_num) hc).1⟩

/-- C4: among entries retained by `search`, any two with equal scores
appear in ascending doc-id order (per the spec's description of the
bounded heap, which lives in the external `priority_queue` crate and
is modelled from the spec's words), and `search` is deterministic:
equal store contents yield the identical result list. -/
theorem search_ties_deterministic (store : StoreModel) (terms : List String)
    (scorer : ScorerFn) (maxDocs : Int) (hs : SortedStore store)
    (hm : 0 ≤ maxDocs) (hc : (scoredCalls store terms scorer).length < 2 ^ 31) :
    (searchHeap store terms scorer maxDocs).Pairwise
      (fun a b => a.2 = b.2 → a.1 < b.1)
    ∧ ∀ store2 : StoreModel,
        (∀ t, store2.termGet t = store.termGet t) →
        (∀ d, store2.docGet d = store.docGet d) →
        (∀ t, store2.postings t = store.postings t) →
        search store2 terms scorer maxDocs = search store terms scorer maxDocs := by
  constructor
  · obtain ⟨hsort, ⟨dropped, hperm, hdom⟩, hlen_eq⟩ :=
      searchHeap_inv store terms scorer maxDocs hm hc
    have hfst : (scoredCalls store terms scorer).map Prod.fst
        = (mergeCalls store.docGet (terms.map store.postings)).map
            ScoreCall.docId := by
      rw [scoredCalls, List.map_map]
      rfl
    have hids : ((scoredCalls store terms scorer).map Prod.fst).Pairwise
        (· < ·) := by
      rw [hfst]
      exact (mergeCalls_ids store terms hs).1
    have hnd : ((scoredCalls store terms scorer).map Prod.fst).Nodup :=
      hids.imp (fun hab => Nat.ne_of_lt hab)
    have hnd2 : (((searchHeap store terms scorer maxDocs) ++ dropped).map
        Prod.fst).Nodup := by
      rw [List.Perm.nodup_iff ((hperm.map Prod.fst).symm)]
      exact hnd
    have hnd3 : ((searchHeap store terms scorer maxDocs).map Prod.fst).Nodup := by
      rw [List.map_append] at hnd2
      exact hnd2.of_append_left
    have hneq : (searchHeap store terms scorer maxDocs).Pairwise
        (fun a b => a.1 ≠ b.1) := List.pairwise_map.mp hnd3
    refine (hsort.and hneq).imp ?_
    rintro a b ⟨hle, hne⟩ heq
    rcases hle with hlt | ⟨_, hle2⟩
    · rw [heq] at hlt
      exact absurd hlt (lt_irrefl _)
    · exact lt_of_le_of_ne hle2 hne
  · intro store2 h1 h2 h3
    have he : store2 = store := by
      obtain ⟨f, g, h⟩ := store2
      obtain ⟨f2, g2, h2b⟩ := store
      simp only [StoreModel.mk.injEq]
      exact ⟨funext h1, funext h2, funext h3⟩
    rw [he]

theorem search_ties_deterministic_witness :
    (SortedStore demoStore ∧ (0 : Int) ≤ 5
      ∧ (scoredCalls demoStore ["a"] (fun _ _ _ _ _ => (0 : ℚ))).length < 2 ^ 31)
    ∧ (searchHeap demoStore ["a"] (fun _ _ _ _ _ => (0 : ℚ)) 5).Pairwise
        (fun a b => a.2 = b.2 → a.1 < b.1) := by
  have hs : SortedStore demoStore := by
    intro t
    show List.Chain' (fun a b => a.1 < b.1)
      [(1, (⟨1, 0⟩ : DocumentTermData)), (3, ⟨0, 1⟩)]
    simp [List.chain'_cons]
  have hc : (scoredCalls demoStore ["a"] (fun _ _ _ _ _ => (0 : ℚ))).length
      < 2 ^ 31 := by
    have h2 : (scoredCalls demoStore ["a"] (fun _ _ _ _ _ => (0 : ℚ))).length
        = 2 := rfl
    omega
  exact ⟨⟨hs, by norm_num, hc⟩,
    (search_ties_deterministic demoStore ["a"] (fun _ _ _ _ _ => (0 : ℚ)) 5 hs
      (by norm_num) hc).1⟩

/-- C10: for every `max_docs < 0`, `search` returns the empty list
without error: after each push the retained size (at least 1, cast to
`i32`) exceeds the negative `max_docs`, so every candidate is evicted
immediately, exactly as in the `max_docs = 0` case. -/
theorem search_negative_max_docs (store : StoreModel) (terms : List String)
    (scorer : ScorerFn) (maxDocs : Int) (hneg : maxDocs < 0) :
    search store terms scorer maxDocs = [] := by
  have hstep : ∀ p : Nat × ℚ, heapPush maxDocs [] p = [] := by
    intro p
    have h1 : toInt32 (insertRanked p []).length = 1 := by
      rw [show insertRanked p [] = [p] from rfl]
      rw [List.length_singleton]
      exact toInt32_small 1 (by norm_num)
    have hcond : toInt32 (insertRanked p []).length > maxDocs := by
      rw [h1]
      omega
    simp only [heapPush]
    rw [if_pos hcond]
    rfl
  have hfold : ∀ sc : List (Nat × ℚ), sc.foldl (heapPush maxDocs) [] = [] := by
    intro sc
    induction sc with
    | nil => rfl
    | cons p rest ih =>
      rw [List.foldl_cons, hstep p]
      exact ih
  rw [search, searchHeap, hfold]
  rfl

theorem search_negative_max_docs_witness :
    search demoStore ["a"] (fun _ _ _ _ _ => (0 : ℚ)) (-1) = [] :=
  search_negative_max_docs demoStore ["a"] (fun _ _ _ _ _ => (0 : ℚ)) (-1)
    (by norm_num)
